import Mathlib

/-!
Shallow embedding of the CPU scheduling metrics engine of
src/main.cpp (CPU-Process-Scheduler-Simulator), together with proofs
of the specified properties.

Modelling conventions:
* C++ int is modelled as the unbounded integer Int (no input here comes
  close to overflow; the program generates bursts in [1,20], priorities
  in [1,3], batches of 10).
* C++ double is modelled as Rat.  Every double produced by the program
  is either an integer-valued accumulator (sums of int values, exact in
  a double) or a single quotient of such an accumulator by the int N,
  so the rational model is exact except for the final IEEE rounding of
  the quotient, which no claim depends on.
* std::vector is modelled as List.
* rand() in multilevel_queue_scheduling is externalised: the outcome of
  the k-th rand() call is an arbitrary function argument draw k, so all
  theorems quantify over every possible random outcome.
* std::sort with a strict-weak-order comparator guarantees only a
  sorted permutation; the order of elements that compare equal is
  implementation defined.  The main model uses List.insertionSort on
  the induced non-strict order, i.e. the stable ascending sort (this
  is exactly what libstdc++ std::sort does for ranges of at most 16
  elements, where it runs plain insertion sort; every batch the
  program itself builds has 10 processes).  A second, bit-faithful
  model of the full libstdc++ introsort is given further down
  (gnuSort) and is used to exhibit the behaviour of std::sort on
  larger ranges, where it is not stable.
-/

namespace CPUSched

/-- Process record: src/main.cpp lines 21-29. -/
structure Process where
  pid : ℤ
  burst_time : ℤ
  priority : ℤ
deriving DecidableEq, Repr

instance : Inhabited Process := ⟨⟨0, 0, 0⟩⟩

/-- Configuration constant QUANTUM = 4 (src/main.cpp line 9). -/
def QUANTUM : ℤ := 4

/-- Configuration constant DEFAULT_PROCESS_COUNT = 10 (line 10). -/
def DEFAULT_PROCESS_COUNT : ℤ := 10

/-- Configuration constant MAX_BURST_TIME = 20 (line 11). -/
def MAX_BURST_TIME : ℤ := 20

/-- Configuration constant MIN_BURST_TIME = 1 (line 12). -/
def MIN_BURST_TIME : ℤ := 1

/-- Configuration constant MAX_PRIORITY = 3 (line 13). -/
def MAX_PRIORITY : ℤ := 3

/-- Configuration constant MIN_PRIORITY = 1 (line 14). -/
def MIN_PRIORITY : ℤ := 1

/-- Configuration constant NUM_QUEUES = 3 (line 15). -/
def NUM_QUEUES : ℕ := 3

/-- total_burst_time (src/main.cpp lines 75-81): double accumulator
summing the burst times of a vector of processes. -/
def total_burst_time (ps : List Process) : ℚ :=
  ps.foldl (fun acc p => acc + (p.burst_time : ℚ)) 0

/-- The waiting-time loop shared by FCFS, SJF and Priority
(src/main.cpp lines 95-97, 164-166, 228-230):
waiting_time[0] = 0 and waiting_time[i] = waiting_time[i-1] +
ordered[i-1].burst_time.  The accumulator w is the value of
waiting_time at the current index. -/
def waiting_aux (w : ℤ) : List Process → List ℤ
  | [] => []
  | p :: ps => w :: waiting_aux (w + p.burst_time) ps

/-- waiting_time array for an execution order (non-preemptive case). -/
def waiting_times (ordered : List Process) : List ℤ :=
  waiting_aux 0 ordered

/-- turnaround_time loop (src/main.cpp lines 100-102 and copies):
turnaround_time[i] = waiting_time[i] + ordered[i].burst_time. -/
def turnaround_times (ordered : List Process) : List ℤ :=
  List.zipWith (fun w p => w + p.burst_time) (waiting_times ordered) ordered

/-- The averaging loop shared by every strategy
(src/main.cpp lines 105-112 and copies): a double accumulator over the
int array, divided by N.  For N = 0 this is the division 0 / 0, which
on IEEE doubles is a division by zero producing NaN; in the rational
model the quotient collapses to the junk value 0. -/
def averageOf (xs : List ℤ) : ℚ :=
  (List.foldl (fun (acc : ℚ) (x : ℤ) => acc + (x : ℚ)) 0 xs) / (xs.length : ℚ)

/-- The metrics block common to FCFS, SJF and Priority: given the
execution order, the waiting/turnaround arrays and both averages.
The three C++ functions repeat this code verbatim on their respective
orders. -/
structure ScheduleResult where
  order : List Process
  waiting_time : List ℤ
  turnaround_time : List ℤ
  avg_waiting_time : ℚ
  avg_turnaround_time : ℚ
deriving DecidableEq, Repr

/-- Shared metrics computation (the identical blocks at src/main.cpp
lines 91-112, 160-181, 224-245). -/
def computeMetrics (ordered : List Process) : ScheduleResult :=
  { order := ordered
    waiting_time := waiting_times ordered
    turnaround_time := turnaround_times ordered
    avg_waiting_time := averageOf (waiting_times ordered)
    avg_turnaround_time := averageOf (turnaround_times ordered) }

/-- Comparator compareByBurstTime (src/main.cpp lines 142-144), as the
non-strict total order it induces for a stable ascending sort. -/
def byBurst (a b : Process) : Prop := a.burst_time ≤ b.burst_time

/-- Comparator of the lambda at src/main.cpp lines 220-222, as the
non-strict total order it induces for a stable ascending sort. -/
def byPrio (a b : Process) : Prop := a.priority ≤ b.priority

instance : DecidableRel byBurst := fun a b =>
  inferInstanceAs (Decidable (a.burst_time ≤ b.burst_time))

instance : DecidableRel byPrio := fun a b =>
  inferInstanceAs (Decidable (a.priority ≤ b.priority))

instance : IsTotal Process byBurst := ⟨fun a b => le_total a.burst_time b.burst_time⟩

instance : IsTrans Process byBurst := ⟨fun _ _ _ h h2 => le_trans h h2⟩

instance : IsTotal Process byPrio := ⟨fun a b => le_total a.priority b.priority⟩

instance : IsTrans Process byPrio := ⟨fun _ _ _ h h2 => le_trans h h2⟩

/-- first_come_first_served (src/main.cpp lines 89-137): the execution
order is the arrival order, unchanged. -/
def first_come_first_served (ps : List Process) : ScheduleResult :=
  computeMetrics ps

/-- shortest_job_first (src/main.cpp lines 152-206): std::sort by
compareByBurstTime, then the shared metrics block.  The sort is
modelled as the stable ascending sort by burst_time (exact for the
libstdc++ insertion-sort regime, ranges of at most 16 elements; see
gnuSort below for the general case). -/
def shortest_job_first (ps : List Process) : ScheduleResult :=
  computeMetrics (ps.insertionSort byBurst)

/-- priority_scheduling (src/main.cpp lines 214-270): std::sort by the
priority comparator, then the shared metrics block; sort modelled as
for shortest_job_first. -/
def priority_scheduling (ps : List Process) : ScheduleResult :=
  computeMetrics (ps.insertionSort byPrio)

/-- Mutable state of the round_robin loop (src/main.cpp lines 278-325):
the global clock, the remaining_burst_time vector and the
waiting_time/completion_time vectors. -/
structure RRState where
  time : ℤ
  remaining : List ℤ
  waiting : List ℤ
  completion : List ℤ
deriving DecidableEq, Repr

/-- Initial round-robin state (src/main.cpp lines 281-290). -/
def rrInit (ps : List Process) : RRState :=
  { time := 0
    remaining := ps.map Process.burst_time
    waiting := List.replicate ps.length 0
    completion := List.replicate ps.length 0 }

/-- One iteration of the inner for-loop of round_robin for index i
(src/main.cpp lines 297-320).  If remaining_burst_time[i] > 0 the
process runs: a full quantum when more than QUANTUM remains, otherwise
it finishes and waiting_time[i] = time - burst_time[i] and
completion_time[i] = time are recorded. -/
def rrVisit (ps : List Process) (s : RRState) (i : ℕ) : RRState :=
  let r := s.remaining.getD i 0
  if 0 < r then
    if QUANTUM < r then
      { s with
        time := s.time + QUANTUM
        remaining := s.remaining.set i (r - QUANTUM) }
    else
      { time := s.time + r
        remaining := s.remaining.set i 0
        waiting := s.waiting.set i (s.time + r - (ps.getD i default).burst_time)
        completion := s.completion.set i (s.time + r) }
  else s

/-- One full sweep of the inner for-loop over indices 0..N-1. -/
def rrSweep (ps : List Process) (s : RRState) : RRState :=
  (List.range ps.length).foldl (rrVisit ps) s

/-- The done flag of a sweep (src/main.cpp lines 294-300): the sweep
leaves done = true exactly when no index it visits has a positive
remaining burst when visited, i.e. when no entry is positive at the
start of the sweep (entries only decrease and each is inspected before
it is modified). -/
def rrDone (ps : List Process) (s : RRState) : Bool :=
  decide (∀ i < ps.length, s.remaining.getD i 0 ≤ 0)

/-- Total remaining burst over the visited index range; the
termination measure of the while(true) loop. -/
def totalRem (ps : List Process) (s : RRState) : ℕ :=
  ∑ i in Finset.range ps.length, (s.remaining.getD i 0).toNat

/-- The while(true) loop of round_robin (src/main.cpp lines 293-325),
written with an explicit sweep-count bound.  The source loop is
unbounded; rrTerminates below proves that the bound used by
round_robin is never reached, so the two agree. -/
def rrLoopFuel (ps : List Process) : ℕ → RRState → RRState
  | 0, s => s
  | fuel + 1, s =>
    if rrDone ps s then rrSweep ps s
    else rrLoopFuel ps fuel (rrSweep ps s)

/-- Result of round_robin: the waiting/turnaround arrays are indexed in
original arrival order (src/main.cpp lines 281-341). -/
structure RRResult where
  final : RRState
  waiting_time : List ℤ
  turnaround_time : List ℤ
  completion_time : List ℤ
  avg_waiting_time : ℚ
  avg_turnaround_time : ℚ
deriving DecidableEq, Repr

/-- round_robin (src/main.cpp lines 278-366). -/
def round_robin (ps : List Process) : RRResult :=
  let fin := rrLoopFuel ps (totalRem ps (rrInit ps) + 1) (rrInit ps)
  { final := fin
    waiting_time := fin.waiting
    turnaround_time := List.zipWith (fun w p => w + p.burst_time) fin.waiting ps
    completion_time := fin.completion
    avg_waiting_time := averageOf fin.waiting
    avg_turnaround_time :=
      averageOf (List.zipWith (fun w p => w + p.burst_time) fin.waiting ps) }

/-- The random distribution loop of multilevel_queue_scheduling
(src/main.cpp lines 378-383): the k-th process is pushed onto queue
draw k % NUM_QUEUES, where draw k is the outcome of the k-th rand()
call. -/
def distributeAux (draw : ℕ → ℕ) :
    ℕ → List Process → List Process × List Process × List Process →
    List Process × List Process × List Process
  | _, [], acc => acc
  | k, p :: rest, (q0, q1, q2) =>
    let qn := draw k % NUM_QUEUES
    distributeAux draw (k + 1) rest
      (if qn = 0 then (q0 ++ [p], q1, q2)
       else if qn = 1 then (q0, q1 ++ [p], q2)
       else (q0, q1, q2 ++ [p]))

/-- The three queues produced by the random distribution. -/
def distributeQueues (draw : ℕ → ℕ) (ps : List Process) :
    List Process × List Process × List Process :=
  distributeAux draw 0 ps ([], [], [])

/-- Result of multilevel_queue_scheduling: the three queues, the three
reported per-queue averages and the overall average. -/
structure MultilevelResult where
  queue0 : List Process
  queue1 : List Process
  queue2 : List Process
  avg_waiting_time_0 : ℚ
  avg_waiting_time_1 : ℚ
  avg_waiting_time_2 : ℚ
  overall_avg_waiting_time : ℚ
deriving DecidableEq, Repr

/-- multilevel_queue_scheduling (src/main.cpp lines 374-442): queue 0
runs round_robin, queue 1 runs FCFS with the total burst of queue 0
added to its average, queue 2 runs SJF with the total burst of queues
0 and 1 added; an empty queue keeps the initial average 0; the overall
average is the sum of the three divided by NUM_QUEUES. -/
def multilevel_queue_scheduling (draw : ℕ → ℕ) (ps : List Process) :
    MultilevelResult :=
  let qs := distributeQueues draw ps
  let q0 := qs.1
  let q1 := qs.2.1
  let q2 := qs.2.2
  let avg0 : ℚ := if q0 ≠ [] then (round_robin q0).avg_waiting_time else 0
  let t0 : ℚ := total_burst_time q0
  let avg1 : ℚ :=
    if q1 ≠ [] then (first_come_first_served q1).avg_waiting_time + t0 else 0
  let t1 : ℚ := total_burst_time q1
  let avg2 : ℚ :=
    if q2 ≠ [] then (shortest_job_first q2).avg_waiting_time + (t0 + t1) else 0
  { queue0 := q0
    queue1 := q1
    queue2 := q2
    avg_waiting_time_0 := avg0
    avg_waiting_time_1 := avg1
    avg_waiting_time_2 := avg2
    overall_avg_waiting_time := (avg0 + avg1 + avg2) / (NUM_QUEUES : ℚ) }

/-!
Bit-faithful model of libstdc++ std::sort (GNU introsort, stl_algo.h
and stl_heap.h of GCC 12), used to determine the order std::sort
actually produces for equal keys.  The vector is a List Process
indexed from 0; iterator arithmetic becomes index arithmetic.  The
unguarded loops of the C++ code (which rely on sentinel elements for
termination) are given explicit fuel; on every input reachable from
the std::sort entry point the fuel is not exhausted.
-/

/-- Read the element at index i (iterator dereference). -/
def aget (v : List Process) (i : ℕ) : Process := v.getD i default

/-- std::iter_swap of the elements at indices i and j. -/
def aswap (v : List Process) (i j : ℕ) : List Process :=
  let xi := aget v i
  let xj := aget v j
  (v.set i xj).set j xi

/-- std::__move_median_to_first(result, a, b, c, comp). -/
def moveMedianToFirst (lt : Process → Process → Bool) (v : List Process)
    (result a b c : ℕ) : List Process :=
  if lt (aget v a) (aget v b) then
    if lt (aget v b) (aget v c) then aswap v result b
    else if lt (aget v a) (aget v c) then aswap v result c
    else aswap v result a
  else if lt (aget v a) (aget v c) then aswap v result a
  else if lt (aget v b) (aget v c) then aswap v result c
  else aswap v result b

/-- The first inner loop of std::__unguarded_partition:
while comp(first, pivot) advance first. -/
def scanUp (lt : Process → Process → Bool) (v : List Process) (pivot : ℕ) :
    ℕ → ℕ → ℕ
  | 0, first => first
  | fuel + 1, first =>
    if lt (aget v first) (aget v pivot) then scanUp lt v pivot fuel (first + 1)
    else first

/-- The second inner loop of std::__unguarded_partition:
while comp(pivot, last) retreat last. -/
def scanDown (lt : Process → Process → Bool) (v : List Process) (pivot : ℕ) :
    ℕ → ℕ → ℕ
  | 0, last => last
  | fuel + 1, last =>
    if lt (aget v pivot) (aget v last) then scanDown lt v pivot fuel (last - 1)
    else last

/-- The outer loop of std::__unguarded_partition(first, last, pivot):
scan up, decrement and scan down, stop returning first when the
cursors meet, otherwise swap and continue. -/
def unguardedPartitionAux (lt : Process → Process → Bool) (pivot : ℕ) :
    ℕ → List Process → ℕ → ℕ → List Process × ℕ
  | 0, v, first, _ => (v, first)
  | fuel + 1, v, first, last =>
    let first1 := scanUp lt v pivot v.length first
    let last1 := scanDown lt v pivot v.length (last - 1)
    if first1 < last1 then
      unguardedPartitionAux lt pivot fuel (aswap v first1 last1) (first1 + 1) last1
    else (v, first1)

/-- std::__unguarded_partition(first, last, pivot, comp). -/
def unguardedPartition (lt : Process → Process → Bool) (v : List Process)
    (first last pivot : ℕ) : List Process × ℕ :=
  unguardedPartitionAux lt pivot (v.length + 1) v first last

/-- std::__unguarded_partition_pivot(first, last, comp): median of
first+1, mid, last-1 moved to first, then partition of (first+1, last)
against the pivot at first. -/
def unguardedPartitionPivot (lt : Process → Process → Bool)
    (v : List Process) (first last : ℕ) : List Process × ℕ :=
  let mid := first + (last - first) / 2
  let v1 := moveMedianToFirst lt v first (first + 1) mid (last - 1)
  unguardedPartition lt v1 (first + 1) last first

/-- std::__push_heap(first, holeIndex, topIndex, value, comp);
indices are offsets from first. -/
def pushHeap (lt : Process → Process → Bool) (first top : ℕ)
    (value : Process) : ℕ → ℕ → List Process → List Process
  | 0, hole, v => v.set (first + hole) value
  | fuel + 1, hole, v =>
    let parent := (hole - 1) / 2
    if top < hole && lt (aget v (first + parent)) value then
      pushHeap lt first top value fuel parent
        (v.set (first + hole) (aget v (first + parent)))
    else v.set (first + hole) value

/-- The sift-down loop of std::__adjust_heap:
while secondChild < (len - 1) / 2 move the larger child up. -/
def adjustHeapDown (lt : Process → Process → Bool) (first len : ℕ) :
    ℕ → ℕ → ℕ → List Process → (List Process × ℕ × ℕ)
  | 0, hole, child, v => (v, hole, child)
  | fuel + 1, hole, child, v =>
    if child < (len - 1) / 2 then
      let c1 := 2 * (child + 1)
      let c2 := if lt (aget v (first + c1)) (aget v (first + (c1 - 1))) then c1 - 1 else c1
      adjustHeapDown lt first len fuel c2 c2 (v.set (first + hole) (aget v (first + c2)))
    else (v, hole, child)

/-- std::__adjust_heap(first, holeIndex, len, value, comp). -/
def adjustHeap (lt : Process → Process → Bool) (first : ℕ) (hole len : ℕ)
    (value : Process) (v : List Process) : List Process :=
  let top := hole
  let res := adjustHeapDown lt first len (len + 1) hole hole v
  let v1 := res.1
  let hole1 := res.2.1
  let child1 := res.2.2
  if len % 2 = 0 && child1 = (len - 2) / 2 then
    let c := 2 * (child1 + 1)
    pushHeap lt first top value (len + 1) (c - 1)
      (v1.set (first + hole1) (aget v1 (first + (c - 1))))
  else
    pushHeap lt first top value (len + 1) hole1 v1

/-- The while(true) loop of std::__make_heap, from parent downwards. -/
def makeHeapAux (lt : Process → Process → Bool) (first len : ℕ) :
    ℕ → ℕ → List Process → List Process
  | 0, _, v => v
  | fuel + 1, parent, v =>
    let value := aget v (first + parent)
    let v1 := adjustHeap lt first parent len value v
    if parent = 0 then v1
    else makeHeapAux lt first len fuel (parent - 1) v1

/-- std::__make_heap(first, last, comp). -/
def makeHeap (lt : Process → Process → Bool) (v : List Process)
    (first last : ℕ) : List Process :=
  if last - first < 2 then v
  else
    let len := last - first
    makeHeapAux lt first len len ((len - 2) / 2) v

/-- The loop of std::__sort_heap: repeatedly pop the maximum to the
shrinking back of the range. -/
def sortHeapAux (lt : Process → Process → Bool) (first : ℕ) :
    ℕ → ℕ → List Process → List Process
  | 0, _, v => v
  | fuel + 1, last, v =>
    if 1 < last - first then
      let last1 := last - 1
      let value := aget v last1
      let v1 := v.set last1 (aget v first)
      sortHeapAux lt first fuel last1 (adjustHeap lt first 0 (last1 - first) value v1)
    else v

/-- std::__sort_heap(first, last, comp). -/
def sortHeap (lt : Process → Process → Bool) (v : List Process)
    (first last : ℕ) : List Process :=
  sortHeapAux lt first (last - first + 1) last v

/-- std::__partial_sort(first, middle, last, comp) in the only form
introsort uses it, middle = last: __heap_select degenerates to
__make_heap (its for-loop over [middle, last) is empty) followed by
__sort_heap. -/
def heapSortRange (lt : Process → Process → Bool) (v : List Process)
    (first last : ℕ) : List Process :=
  sortHeap lt (makeHeap lt v first last) first last

/-- std::__introsort_loop(first, last, depth_limit, comp): quicksort
recursion down to ranges of at most 16 elements, falling back to
heapsort when the depth limit reaches zero.  The while loop on the
left subrange is the second recursive call. -/
def introsortLoop (lt : Process → Process → Bool) :
    ℕ → ℕ → ℕ → ℕ → List Process → List Process
  | 0, _, _, _, v => v
  | fuel + 1, first, last, depth, v =>
    if 16 < last - first then
      if depth = 0 then heapSortRange lt v first last
      else
        let pc := unguardedPartitionPivot lt v first last
        let v2 := introsortLoop lt fuel pc.2 last (depth - 1) pc.1
        introsortLoop lt fuel first pc.2 (depth - 1) v2
    else v

/-- The hole-shifting std::move_backward(first, i, i + 1) of
__insertion_sort: entries first..i-1 move one slot up. -/
def shiftUpAux : ℕ → ℕ → List Process → List Process
  | 0, _, v => v
  | c + 1, j, v => shiftUpAux c (j - 1) (v.set j (aget v (j - 1)))

/-- std::__unguarded_linear_insert(last, comp): sift value down past
all strictly greater predecessors. -/
def unguardedLinearInsertAux (lt : Process → Process → Bool)
    (value : Process) : ℕ → ℕ → List Process → List Process
  | 0, j, v => v.set j value
  | fuel + 1, j, v =>
    if lt value (aget v (j - 1)) then
      unguardedLinearInsertAux lt value fuel (j - 1) (v.set j (aget v (j - 1)))
    else v.set j value

/-- std::__unguarded_linear_insert at index i. -/
def unguardedLinearInsert (lt : Process → Process → Bool)
    (v : List Process) (i : ℕ) : List Process :=
  unguardedLinearInsertAux lt (aget v i) i i v

/-- The for-loop of std::__insertion_sort over i = first+1 .. last-1:
an element smaller than the front is rotated to the front, any other
element is sifted by __unguarded_linear_insert. -/
def insertionSortGnuAux (lt : Process → Process → Bool) (first : ℕ) :
    ℕ → ℕ → List Process → List Process
  | 0, _, v => v
  | fuel + 1, i, v =>
    let v2 :=
      if lt (aget v i) (aget v first) then
        let val := aget v i
        (shiftUpAux (i - first) i v).set first val
      else unguardedLinearInsert lt v i
    insertionSortGnuAux lt first fuel (i + 1) v2

/-- std::__insertion_sort(first, last, comp). -/
def insertionSortGnu (lt : Process → Process → Bool) (v : List Process)
    (first last : ℕ) : List Process :=
  if first = last then v
  else insertionSortGnuAux lt first (last - (first + 1)) (first + 1) v

/-- The for-loop of std::__unguarded_insertion_sort over [first,last). -/
def unguardedInsertionSortAux (lt : Process → Process → Bool) :
    ℕ → ℕ → List Process → List Process
  | 0, _, v => v
  | fuel + 1, i, v => unguardedInsertionSortAux lt fuel (i + 1) (unguardedLinearInsert lt v i)

/-- std::__final_insertion_sort(first, last, comp): plain insertion
sort of the first 16 slots, unguarded insertion for the rest. -/
def finalInsertionSort (lt : Process → Process → Bool) (v : List Process)
    (first last : ℕ) : List Process :=
  if 16 < last - first then
    unguardedInsertionSortAux lt (last - (first + 16)) (first + 16)
      (insertionSortGnu lt v first (first + 16))
  else insertionSortGnu lt v first last

/-- Floor of log2, written with structural fuel so that it reduces in
the kernel; lgAux n n = Nat.log2 n. -/
def lgAux : ℕ → ℕ → ℕ
  | 0, _ => 0
  | fuel + 1, n => if 2 ≤ n then lgAux fuel (n / 2) + 1 else 0

/-- std::__lg(n): floor of log2 n. -/
def lgFloor (n : ℕ) : ℕ := lgAux n n

/-- std::sort(first, last, comp) as libstdc++ implements it:
__introsort_loop with depth limit 2 * std::__lg(n), then
__final_insertion_sort. -/
def gnuSort (lt : Process → Process → Bool) (v : List Process) : List Process :=
  if v.length = 0 then v
  else
    finalInsertionSort lt
      (introsortLoop lt (2 * lgFloor v.length + 2) 0 v.length
        (2 * lgFloor v.length) v)
      0 v.length

/-- The strict comparator compareByBurstTime as the Bool function
std::sort receives (src/main.cpp lines 142-144). -/
def ltBurst (a b : Process) : Bool := a.burst_time < b.burst_time

/-- The strict priority comparator lambda (src/main.cpp lines 220-222). -/
def ltPrio (a b : Process) : Bool := a.priority < b.priority

/-- shortest_job_first with std::sort modelled bit-faithfully as the
libstdc++ introsort. -/
def shortest_job_first_gnu (ps : List Process) : ScheduleResult :=
  computeMetrics (gnuSort ltBurst ps)

/-- priority_scheduling with std::sort modelled bit-faithfully as the
libstdc++ introsort. -/
def priority_scheduling_gnu (ps : List Process) : ScheduleResult :=
  computeMetrics (gnuSort ltPrio ps)

/-- Error taxonomy of spec section 7 for invalid configurations. -/
inductive ConfigError where
  | nonPositiveQuantum
  | nonPositiveQueueCount
  | burstRangeMinGtMax
  | priorityRangeMinGtMax
deriving DecidableEq, Repr

/-- A configuration as enumerated in spec section 9: quantum, queue
count and the two generation ranges.  In src/main.cpp these are the
hard-coded constants of lines 8-15. -/
structure SchedulerConfig where
  quantum : ℤ
  num_queues : ℤ
  burst_min : ℤ
  burst_max : ℤ
  priority_min : ℤ
  priority_max : ℤ
deriving DecidableEq, Repr

/-- The precondition that a given configuration error reports. -/
def configErrorHolds (c : SchedulerConfig) : ConfigError → Prop
  | .nonPositiveQuantum => c.quantum ≤ 0
  | .nonPositiveQueueCount => c.num_queues ≤ 0
  | .burstRangeMinGtMax => c.burst_max < c.burst_min
  | .priorityRangeMinGtMax => c.priority_max < c.priority_min

/-- Modelled from the spec: src/main.cpp has no configuration
validation (its configuration is the compile-time constants of lines
8-15, which are never checked), so the validator demanded by spec
section 7 is modelled from its words: non-positive quantum,
non-positive queue count, or burst/priority ranges with min greater
than max are rejected with an explicit error identifying the failed
precondition. -/
def validate_configuration (c : SchedulerConfig) : Except ConfigError Unit :=
  if c.quantum ≤ 0 then .error .nonPositiveQuantum
  else if c.num_queues ≤ 0 then .error .nonPositiveQueueCount
  else if c.burst_max < c.burst_min then .error .burstRangeMinGtMax
  else if c.priority_max < c.priority_min then .error .priorityRangeMinGtMax
  else .ok ()

/-- Modelled from the spec: an engine entry point that validates its
configuration before any scheduling computation begins and only then
runs the given strategy; on a validation failure the error is
propagated and no ScheduleResult is returned. -/
def run_validated (strat : List Process → ScheduleResult)
    (c : SchedulerConfig) (ps : List Process) : Except ConfigError ScheduleResult :=
  match validate_configuration c with
  | .error e => .error e
  | .ok _ => .ok (strat ps)

/-- The scenario batch of spec section 8:
[(id0,burst5,prio1),(id1,burst3,prio2),(id2,burst8,prio1)]. -/
def batchA : List Process := [⟨0, 5, 1⟩, ⟨1, 3, 2⟩, ⟨2, 8, 1⟩]

/-- A batch of 17 processes, ids 0..16 in arrival order, all with
burst_time 5: every pair of processes ties on burst_time, so a stable
SJF sort must return it unchanged. -/
def batch17 : List Process :=
  [⟨0, 5, 1⟩, ⟨1, 5, 1⟩, ⟨2, 5, 1⟩, ⟨3, 5, 1⟩, ⟨4, 5, 1⟩, ⟨5, 5, 1⟩,
   ⟨6, 5, 1⟩, ⟨7, 5, 1⟩, ⟨8, 5, 1⟩, ⟨9, 5, 1⟩, ⟨10, 5, 1⟩, ⟨11, 5, 1⟩,
   ⟨12, 5, 1⟩, ⟨13, 5, 1⟩, ⟨14, 5, 1⟩, ⟨15, 5, 1⟩, ⟨16, 5, 1⟩]

/-- The exact arithmetic mean of a list of integers, as a rational. -/
def meanQ (xs : List ℤ) : ℚ := ((xs.sum : ℤ) : ℚ) / (xs.length : ℚ)

/-- The Metrics Calculator contract of spec section 4.1 on a
ScheduleResult: waiting_time[0] = 0, the prefix-sum recurrence,
turnaround_time[i] = waiting_time[i] + burst_time[i], and both
averages equal to the exact arithmetic means. -/
def MetricsOK (r : ScheduleResult) : Prop :=
  r.waiting_time.getD 0 0 = 0 ∧
  (∀ i, i + 1 < r.order.length →
    r.waiting_time.getD (i + 1) 0 =
      r.waiting_time.getD i 0 + (r.order.getD i default).burst_time) ∧
  (∀ i, i < r.order.length →
    r.turnaround_time.getD i 0 =
      r.waiting_time.getD i 0 + (r.order.getD i default).burst_time) ∧
  r.avg_waiting_time = meanQ r.waiting_time ∧
  r.avg_turnaround_time = meanQ r.turnaround_time

/-- Sum of the burst times of a list of processes, as an integer. -/
def sumBurst (ps : List Process) : ℤ := (ps.map Process.burst_time).sum

/-- Sum of the waiting times of an execution order. -/
def sumWaiting (ps : List Process) : ℤ := (waiting_times ps).sum

/-- Signed total remaining burst over the visited index range. -/
def intRem (ps : List Process) (s : RRState) : ℤ :=
  ∑ i in Finset.range ps.length, s.remaining.getD i 0

/-- Invariant of the round-robin loop: the per-process vectors keep
their size, the clock never runs backwards, every remaining burst is
non-negative, no recorded completion lies in the future, a process
that still has remaining burst has not recorded waiting or completion
times, and a finished process records exactly
waiting_time[i] = completion_time[i] - burst_time[i]. -/
def RRInv (ps : List Process) (s : RRState) : Prop :=
  s.remaining.length = ps.length ∧
  s.waiting.length = ps.length ∧
  s.completion.length = ps.length ∧
  0 ≤ s.time ∧
  ∀ i < ps.length,
    0 ≤ s.remaining.getD i 0 ∧
    s.completion.getD i 0 ≤ s.time ∧
    (0 < s.remaining.getD i 0 →
      s.waiting.getD i 0 = 0 ∧ s.completion.getD i 0 = 0) ∧
    (s.remaining.getD i 0 = 0 →
      s.waiting.getD i 0 =
        s.completion.getD i 0 - (ps.getD i default).burst_time)

/-!  Theorems. -/

set_option maxRecDepth 80000 in
/-- C1: the claim that the SJF and Priority execution orders are
stable sorts fails on the code.  std::sort gives no stability
guarantee, and the libstdc++ introsort it runs (modelled bit-exactly
by gnuSort, which reproduces the observed output of g++ 12) reorders
a batch of 17 processes whose burst times are all equal: the SJF
execution order comes out as pids 8,16,15,...,1 instead of the
arrival order 0..16.  On ranges of at most 16 elements std::sort runs
plain insertion sort and is stable, which is why the 3-process
Scenario C of the claim does hold: Priority yields order id0,id2,id1
with waiting [0,5,13] and turnaround [5,13,16]. -/
theorem C1_sort_not_stable_eval :
    (∀ p ∈ batch17, p.burst_time = 5) ∧
    (shortest_job_first_gnu batch17).order.map Process.pid =
      [8, 16, 15, 14, 13, 12, 11, 10, 9, 0, 7, 6, 5, 4, 3, 2, 1] ∧
    batch17.map Process.pid =
      [0, 1, 2, 3, 4, 5, 6, 7, 8, 9, 10, 11, 12, 13, 14, 15, 16] ∧
    (shortest_job_first_gnu batch17).order.map Process.pid ≠
      batch17.map Process.pid ∧
    (priority_scheduling_gnu batchA).order.map Process.pid = [0, 2, 1] ∧
    (priority_scheduling_gnu batchA).waiting_time = [0, 5, 13] ∧
    (priority_scheduling_gnu batchA).turnaround_time = [5, 13, 16] ∧
    (priority_scheduling batchA).order.map Process.pid = [0, 2, 1] ∧
    (priority_scheduling batchA).waiting_time = [0, 5, 13] ∧
    (priority_scheduling batchA).turnaround_time = [5, 13, 16] := by
  decide

/-- C5: on the empty batch the strategies do not return a uniform
defined result: FCFS, SJF, Priority and Round-Robin each evaluate
their average as a sum divided by the batch length 0 (the division
avg_waiting_time /= N of the source with N = 0, which on IEEE doubles
produces NaN; in the rational model the junk value 0), while
multilevel_queue_scheduling never divides by a batch-dependent count
and returns the plain constant 0 through its emptiness guards. -/
theorem C5_empty_batch_eval :
    (first_come_first_served ([] : List Process)).waiting_time.length = 0 ∧
    (first_come_first_served ([] : List Process)).avg_waiting_time =
      (0 : ℚ) / ((0 : ℕ) : ℚ) ∧
    (shortest_job_first ([] : List Process)).avg_waiting_time =
      (0 : ℚ) / ((0 : ℕ) : ℚ) ∧
    (priority_scheduling ([] : List Process)).avg_waiting_time =
      (0 : ℚ) / ((0 : ℕ) : ℚ) ∧
    (round_robin ([] : List Process)).avg_waiting_time =
      (0 : ℚ) / ((0 : ℕ) : ℚ) ∧
    (multilevel_queue_scheduling (fun _ => 0) ([] : List Process)).overall_avg_waiting_time
      = 0 := by
  refine ⟨rfl, rfl, rfl, rfl, rfl, ?_⟩
  norm_num [multilevel_queue_scheduling, distributeQueues, distributeAux, NUM_QUEUES]

/-- C6: FCFS is order preserving, its first waiting time is 0, and on
the scenario batch it yields waiting [0,5,8], turnaround [5,8,16] and
average waiting time 13/3, whose two-decimal display is 4.33. -/
theorem C6_fcfs_order_preserving :
    (∀ ps : List Process, (first_come_first_served ps).order = ps) ∧
    (∀ ps : List Process, ps ≠ [] →
      (first_come_first_served ps).waiting_time.getD 0 0 = 0) ∧
    (first_come_first_served batchA).waiting_time = [0, 5, 8] ∧
    (first_come_first_served batchA).turnaround_time = [5, 8, 16] ∧
    (first_come_first_served batchA).avg_waiting_time = 13 / 3 ∧
    |(first_come_first_served batchA).avg_waiting_time * 100 - 433| ≤ 1 / 2 := by
  have havg : (first_come_first_served batchA).avg_waiting_time = 13 / 3 := by
    norm_num [first_come_first_served, computeMetrics, averageOf, waiting_times,
      waiting_aux, batchA]
  refine ⟨fun ps => rfl, fun ps hne => ?_, by decide, by decide, havg, ?_⟩
  · cases ps with
    | nil => exact absurd rfl hne
    | cons p t => rfl
  · rw [havg]
    norm_num [abs_le]

/-- Witness for C6 at the scenario batch. -/
theorem C6_witness :
    (first_come_first_served batchA).order = batchA ∧
    (first_come_first_served batchA).waiting_time.getD 0 0 = 0 :=
  ⟨C6_fcfs_order_preserving.1 batchA,
   C6_fcfs_order_preserving.2.1 batchA (by decide)⟩

/-- C9: the spec-modelled validator rejects every configuration with
a non-positive quantum, non-positive queue count, or a burst or
priority range whose minimum exceeds its maximum, with an explicit
error identifying a failed precondition, and the validated entry
point then returns that error and no ScheduleResult. -/
theorem C9_invalid_config_rejected :
    ∀ (strat : List Process → ScheduleResult) (c : SchedulerConfig)
      (ps : List Process),
      (c.quantum ≤ 0 ∨ c.num_queues ≤ 0 ∨ c.burst_max < c.burst_min ∨
        c.priority_max < c.priority_min) →
      ∃ e : ConfigError, validate_configuration c = Except.error e ∧
        configErrorHolds c e ∧ run_validated strat c ps = Except.error e := by
  intro strat c ps h
  have hv : ∃ e, validate_configuration c = Except.error e ∧ configErrorHolds c e := by
    unfold validate_configuration
    split_ifs with h1 h2 h3 h4
    · exact ⟨.nonPositiveQuantum, rfl, h1⟩
    · exact ⟨.nonPositiveQueueCount, rfl, h2⟩
    · exact ⟨.burstRangeMinGtMax, rfl, h3⟩
    · exact ⟨.priorityRangeMinGtMax, rfl, h4⟩
    · rcases h with h | h | h | h
      exacts [absurd h h1, absurd h h2, absurd h h3, absurd h h4]
  obtain ⟨e, he, hc⟩ := hv
  refine ⟨e, he, hc, ?_⟩
  unfold run_validated
  rw [he]

/-- The queue contents after the distribution loop are exactly the
accumulator contents plus the processes still to distribute, as
multisets: each process is pushed onto exactly one queue. -/
theorem distributeAux_multiset (draw : ℕ → ℕ) :
    ∀ (ps : List Process) (k : ℕ) (q0 q1 q2 : List Process),
      ((distributeAux draw k ps (q0, q1, q2)).1 : Multiset Process) +
        ((distributeAux draw k ps (q0, q1, q2)).2.1 : Multiset Process) +
        ((distributeAux draw k ps (q0, q1, q2)).2.2 : Multiset Process) =
        (q0 : Multiset Process) + (q1 : Multiset Process) +
          (q2 : Multiset Process) + (ps : Multiset Process) := by
  intro ps
  induction ps with
  | nil =>
    intro k q0 q1 q2
    simp [distributeAux]
  | cons p rest ih =>
    intro k q0 q1 q2
    simp only [distributeAux]
    by_cases h0 : draw k % NUM_QUEUES = 0
    · rw [if_pos h0, ih]
      simp only [← Multiset.coe_add, ← Multiset.cons_coe, ← Multiset.singleton_add,
        Multiset.coe_nil]
      abel
    · rw [if_neg h0]
      by_cases h1 : draw k % NUM_QUEUES = 1
      · rw [if_pos h1, ih]
        simp only [← Multiset.coe_add, ← Multiset.cons_coe, ← Multiset.singleton_add,
          Multiset.coe_nil]
        abel
      · rw [if_neg h1, ih]
        simp only [← Multiset.coe_add, ← Multiset.cons_coe, ← Multiset.singleton_add,
          Multiset.coe_nil]
        abel

/-- C8: for every outcome of the random queue assignment, the three
queue sizes sum to the batch size and every process occurs across the
three queues exactly as often as in the batch (each process is placed
in exactly one queue). -/
theorem C8_partition_exact (draw : ℕ → ℕ) (ps : List Process) :
    ((distributeQueues draw ps).1.length + (distributeQueues draw ps).2.1.length +
      (distributeQueues draw ps).2.2.length = ps.length) ∧
    ∀ p : Process,
      (distributeQueues draw ps).1.count p + (distributeQueues draw ps).2.1.count p +
        (distributeQueues draw ps).2.2.count p = ps.count p := by
  have h := distributeAux_multiset draw ps 0 [] [] []
  constructor
  · have hc := congrArg Multiset.card h
    simp [distributeQueues] at hc ⊢
    omega
  · intro p
    have hc := congrArg (Multiset.count p) h
    simp [distributeQueues] at hc ⊢
    omega

/-- C4: for every partition outcome, the reported queue-1 average is
queue 1's FCFS average plus the total burst time of queue 0, the
reported queue-2 average is queue 2's SJF average plus the combined
total burst of queues 0 and 1, an empty queue contributes 0, and the
overall average is the sum of the three per-queue averages divided by
3 (the unweighted mean, not a batch-size-weighted mean). -/
theorem C4_multilevel_composition (draw : ℕ → ℕ) (ps : List Process) :
    ((multilevel_queue_scheduling draw ps).queue1 ≠ [] →
      (multilevel_queue_scheduling draw ps).avg_waiting_time_1 =
        (first_come_first_served
            (multilevel_queue_scheduling draw ps).queue1).avg_waiting_time +
          total_burst_time (multilevel_queue_scheduling draw ps).queue0) ∧
    ((multilevel_queue_scheduling draw ps).queue1 = [] →
      (multilevel_queue_scheduling draw ps).avg_waiting_time_1 = 0) ∧
    ((multilevel_queue_scheduling draw ps).queue2 ≠ [] →
      (multilevel_queue_scheduling draw ps).avg_waiting_time_2 =
        (shortest_job_first
            (multilevel_queue_scheduling draw ps).queue2).avg_waiting_time +
          (total_burst_time (multilevel_queue_scheduling draw ps).queue0 +
            total_burst_time (multilevel_queue_scheduling draw ps).queue1)) ∧
    ((multilevel_queue_scheduling draw ps).queue2 = [] →
      (multilevel_queue_scheduling draw ps).avg_waiting_time_2 = 0) ∧
    ((multilevel_queue_scheduling draw ps).queue0 = [] →
      (multilevel_queue_scheduling draw ps).avg_waiting_time_0 = 0) ∧
    (multilevel_queue_scheduling draw ps).overall_avg_waiting_time =
      ((multilevel_queue_scheduling draw ps).avg_waiting_time_0 +
        (multilevel_queue_scheduling draw ps).avg_waiting_time_1 +
        (multilevel_queue_scheduling draw ps).avg_waiting_time_2) / 3 := by
  simp only [multilevel_queue_scheduling]
  refine ⟨fun h1 => ?_, fun h1 => ?_, fun h2 => ?_, fun h2 => ?_, fun h0 => ?_, ?_⟩
  · rw [if_pos h1]
  · rw [if_neg (by simpa using h1)]
  · rw [if_pos h2]
  · rw [if_neg (by simpa using h2)]
  · rw [if_neg (by simpa using h0)]
  · norm_num [NUM_QUEUES]

/-- Witness for C4: with draw k = k on the scenario batch all three
queues are non-empty, and the queue-1 offset identity is obtained from
the theorem. -/
theorem C4_witness :
    (multilevel_queue_scheduling (fun k => k) batchA).queue1 ≠ [] ∧
    (multilevel_queue_scheduling (fun k => k) batchA).avg_waiting_time_1 =
      (first_come_first_served
          (multilevel_queue_scheduling (fun k => k) batchA).queue1).avg_waiting_time +
        total_burst_time (multilevel_queue_scheduling (fun k => k) batchA).queue0 :=
  ⟨by decide, (C4_multilevel_composition (fun k => k) batchA).1 (by decide)⟩

/-- The first entry produced by the waiting-time loop is its
accumulator. -/
theorem waiting_aux_getD_zero (w : ℤ) (l : List Process) (hl : l ≠ []) :
    (waiting_aux w l).getD 0 0 = w := by
  cases l with
  | nil => exact absurd rfl hl
  | cons p t => rfl

/-- The waiting-time loop produces one entry per process. -/
theorem waiting_aux_length (w : ℤ) (l : List Process) :
    (waiting_aux w l).length = l.length := by
  induction l generalizing w with
  | nil => rfl
  | cons p t ih => simp [waiting_aux, ih]

/-- The recurrence of the waiting-time loop, entry by entry. -/
theorem waiting_aux_getD_succ (l : List Process) :
    ∀ (w : ℤ) (i : ℕ), i + 1 < l.length →
      (waiting_aux w l).getD (i + 1) 0 =
        (waiting_aux w l).getD i 0 + (l.getD i default).burst_time := by
  induction l with
  | nil =>
    intro w i h
    simp at h
  | cons p t ih =>
    intro w i h
    cases i with
    | zero =>
      have ht : t ≠ [] := by
        intro he
        rw [he] at h
        simp at h
      simp only [waiting_aux, List.getD_cons_succ, List.getD_cons_zero]
      exact waiting_aux_getD_zero _ _ ht
    | succ j =>
      have hj : j + 1 < t.length := by simpa using h
      simp only [waiting_aux, List.getD_cons_succ]
      exact ih (w + p.burst_time) j hj

/-- Entrywise description of the turnaround zip. -/
theorem getD_zipWith_burst (ws : List ℤ) :
    ∀ (ps : List Process) (i : ℕ), i < ws.length → i < ps.length →
      (List.zipWith (fun w p => w + p.burst_time) ws ps).getD i 0 =
        ws.getD i 0 + (ps.getD i default).burst_time := by
  induction ws with
  | nil =>
    intro ps i h1 h2
    simp at h1
  | cons w ws ih =>
    intro ps i h1 h2
    cases ps with
    | nil => simp at h2
    | cons p ps =>
      cases i with
      | zero => rfl
      | succ j =>
        simp only [List.zipWith, List.getD_cons_succ]
        exact ih ps j (by simpa using h1) (by simpa using h2)

/-- The double accumulation loop computes the cast of the integer sum. -/
theorem foldl_add_cast (xs : List ℤ) :
    ∀ c : ℚ, List.foldl (fun (acc : ℚ) (x : ℤ) => acc + (x : ℚ)) c xs =
      c + ((xs.sum : ℤ) : ℚ) := by
  induction xs with
  | nil => intro c; simp
  | cons x t ih =>
    intro c
    simp only [List.foldl, List.sum_cons, ih]
    push_cast
    ring

/-- The averaging loop returns exactly the arithmetic mean. -/
theorem averageOf_eq_meanQ (xs : List ℤ) : averageOf xs = meanQ xs := by
  unfold averageOf meanQ
  rw [foldl_add_cast xs 0, zero_add]

/-- The shared metrics block satisfies the Metrics Calculator
contract on any execution order. -/
theorem computeMetrics_ok (ordered : List Process) :
    MetricsOK (computeMetrics ordered) := by
  unfold MetricsOK computeMetrics
  refine ⟨?_, ?_, ?_, averageOf_eq_meanQ _, averageOf_eq_meanQ _⟩
  · cases ordered with
    | nil => rfl
    | cons p t => rfl
  · intro i hi
    exact waiting_aux_getD_succ ordered 0 i hi
  · intro i hi
    unfold turnaround_times
    exact getD_zipWith_burst (waiting_times ordered) ordered i
      (by rw [waiting_times, waiting_aux_length]; exact hi) hi

/-- C2: for every non-empty batch each non-preemptive strategy
satisfies the Metrics Calculator contract on its own execution order:
waiting_time[0] = 0, the prefix-sum recurrence on waiting times,
turnaround_time[i] = waiting_time[i] + burst_time[i], and both
returned averages equal the exact arithmetic means. -/
theorem C2_metrics_contract (ps : List Process) (_hne : ps ≠ []) :
    MetricsOK (first_come_first_served ps) ∧
    MetricsOK (shortest_job_first ps) ∧
    MetricsOK (priority_scheduling ps) :=
  ⟨computeMetrics_ok ps, computeMetrics_ok _, computeMetrics_ok _⟩

/-- Witness for C2 at the scenario batch. -/
theorem C2_witness :
    MetricsOK (first_come_first_served batchA) ∧
    MetricsOK (shortest_job_first batchA) ∧
    MetricsOK (priority_scheduling batchA) :=
  C2_metrics_contract batchA (by decide)

/-- Sum of the waiting-time loop with an arbitrary accumulator. -/
theorem waiting_aux_sum (l : List Process) :
    ∀ w : ℤ, (waiting_aux w l).sum = l.length * w + sumWaiting l := by
  induction l with
  | nil =>
    intro w
    simp [waiting_aux, sumWaiting, waiting_times]
  | cons p t ih =>
    intro w
    have hL : (waiting_aux w (p :: t)).sum =
        w + ((t.length : ℤ) * (w + p.burst_time) + sumWaiting t) := by
      simp only [waiting_aux, List.sum_cons]
      rw [ih (w + p.burst_time)]
    have hR : sumWaiting (p :: t) =
        (t.length : ℤ) * (0 + p.burst_time) + sumWaiting t := by
      show (waiting_aux 0 (p :: t)).sum = _
      simp only [waiting_aux, List.sum_cons]
      rw [ih (0 + p.burst_time)]
      ring
    rw [hL, hR]
    simp only [List.length_cons]
    push_cast
    ring

/-- The total waiting time of an order, with the head split off: the
head contributes its burst once per process behind it. -/
theorem sumWaiting_cons (p : Process) (t : List Process) :
    sumWaiting (p :: t) = p.burst_time * t.length + sumWaiting t := by
  show (waiting_aux 0 (p :: t)).sum = _
  simp only [waiting_aux, List.sum_cons]
  rw [waiting_aux_sum t (0 + p.burst_time)]
  ring

/-- The total waiting time of a concatenation: every process of the
first block additionally delays every process of the second block. -/
theorem sumWaiting_append (u v : List Process) :
    sumWaiting (u ++ v) = sumWaiting u + sumWaiting v + sumBurst u * v.length := by
  induction u with
  | nil => simp [sumWaiting, waiting_times, waiting_aux, sumBurst]
  | cons p t ih =>
    simp only [List.cons_append, sumWaiting_cons, ih, sumBurst, List.map_cons,
      List.sum_cons, List.length_append]
    push_cast
    ring

/-- A lower bound for a block all of whose bursts dominate x. -/
theorem le_sumBurst (x : Process) (b : List Process)
    (h : ∀ q ∈ b, x.burst_time ≤ q.burst_time) :
    x.burst_time * b.length ≤ sumBurst b := by
  induction b with
  | nil => simp [sumBurst]
  | cons q t ih =>
    have h1 := h q (List.mem_cons_self q t)
    have h2 := ih (fun r hr => h r (List.mem_cons_of_mem q hr))
    simp only [sumBurst, List.map_cons, List.sum_cons, List.length_cons] at h2 ⊢
    push_cast
    nlinarith [h1, h2]

/-- Moving a minimal-burst process to the front does not increase the
total waiting time. -/
theorem sumWaiting_min_front (x : Process) (before after : List Process)
    (h : ∀ q ∈ before, x.burst_time ≤ q.burst_time) :
    sumWaiting (x :: (before ++ after)) ≤ sumWaiting (before ++ x :: after) := by
  have hx := le_sumBurst x before h
  rw [sumWaiting_cons, sumWaiting_append, sumWaiting_append, sumWaiting_cons]
  simp only [List.length_append, List.length_cons]
  push_cast
  push_cast at hx
  nlinarith [hx]

/-- The exchange argument: among all orders of a batch, an order
sorted ascending by burst time has minimal total waiting time. -/
theorem sumWaiting_sorted_le (s : List Process) :
    ∀ l : List Process, s.Perm l → s.Sorted byBurst →
      sumWaiting s ≤ sumWaiting l := by
  induction s with
  | nil =>
    intro l hp _
    rw [hp.symm.eq_nil]
  | cons x s2 ih =>
    intro l hp hs
    have hx : x ∈ l := hp.subset (List.mem_cons_self x s2)
    obtain ⟨before, after, rfl⟩ := List.append_of_mem hx
    have hperm : s2.Perm (before ++ after) :=
      (hp.trans List.perm_middle).cons_inv
    have hs2 : s2.Sorted byBurst := hs.of_cons
    have hmin : ∀ q ∈ s2, x.burst_time ≤ q.burst_time := fun q hq =>
      List.rel_of_sorted_cons hs q hq
    have hminb : ∀ q ∈ before, x.burst_time ≤ q.burst_time := fun q hq =>
      hmin q (hperm.symm.subset (List.mem_append_left after hq))
    have hlen : (s2.length : ℤ) = ((before ++ after).length : ℤ) := by
      exact_mod_cast hperm.length_eq
    calc sumWaiting (x :: s2)
        = x.burst_time * s2.length + sumWaiting s2 := sumWaiting_cons x s2
      _ ≤ x.burst_time * (before ++ after).length + sumWaiting (before ++ after) := by
          rw [← hlen]
          exact add_le_add_left (ih (before ++ after) hperm hs2) _
      _ = sumWaiting (x :: (before ++ after)) := (sumWaiting_cons x _).symm
      _ ≤ sumWaiting (before ++ x :: after) :=
          sumWaiting_min_front x before after hminb

/-- C10: for every non-empty batch the SJF average waiting time is at
most the FCFS average waiting time (running in ascending burst order
minimizes the mean waiting time; the bound is independent of how
equal-burst ties are broken, since the waiting times depend only on
the sorted burst sequence). -/
theorem C10_sjf_min_avg (ps : List Process) (hne : ps ≠ []) :
    (shortest_job_first ps).avg_waiting_time ≤
      (first_come_first_served ps).avg_waiting_time := by
  have hperm : (ps.insertionSort byBurst).Perm ps := List.perm_insertionSort byBurst ps
  have hsort : (ps.insertionSort byBurst).Sorted byBurst :=
    List.sorted_insertionSort byBurst ps
  have hsum : sumWaiting (ps.insertionSort byBurst) ≤ sumWaiting ps :=
    sumWaiting_sorted_le _ ps hperm hsort
  show averageOf (waiting_times (ps.insertionSort byBurst)) ≤
    averageOf (waiting_times ps)
  rw [averageOf_eq_meanQ, averageOf_eq_meanQ]
  unfold meanQ
  have hlen1 : (waiting_times (ps.insertionSort byBurst)).length = ps.length := by
    rw [waiting_times, waiting_aux_length, hperm.length_eq]
  have hlen2 : (waiting_times ps).length = ps.length := by
    rw [waiting_times, waiting_aux_length]
  rw [hlen1, hlen2]
  have hN : 0 < (ps.length : ℚ) := by
    have hlp : 0 < ps.length := List.length_pos.mpr hne
    exact_mod_cast hlp
  refine (div_le_div_iff_of_pos_right hN).mpr ?_
  exact_mod_cast hsum

/-- Witness for C10 at the scenario batch. -/
theorem C10_witness :
    batchA ≠ [] ∧
    (shortest_job_first batchA).avg_waiting_time ≤
      (first_come_first_served batchA).avg_waiting_time :=
  ⟨by decide, C10_sjf_min_avg batchA (by decide)⟩

/-- getD after set at the written index. -/
theorem getD_set_self (l : List ℤ) (i : ℕ) (x : ℤ) (h : i < l.length) :
    (l.set i x).getD i 0 = x := by
  simp [List.getD, List.getElem?_set_eq_of_lt x h]

/-- getD after set at a different index. -/
theorem getD_set_ne (l : List ℤ) (i j : ℕ) (x : ℤ) (h : i ≠ j) :
    (l.set i x).getD j 0 = l.getD j 0 := by
  simp [List.getD, List.getElem?_set_ne h]

/-- A positive getD entry lies inside the list. -/
theorem lt_length_of_getD_pos (l : List ℤ) (i : ℕ) (h : 0 < l.getD i 0) :
    i < l.length := by
  by_contra hge
  rw [List.getD_eq_default _ _ (le_of_not_lt hge)] at h
  exact lt_irrefl 0 h

/-- A visit of index i leaves every other remaining entry unchanged. -/
theorem rrVisit_remaining_ne (ps : List Process) (s : RRState) (i j : ℕ)
    (h : i ≠ j) :
    (rrVisit ps s i).remaining.getD j 0 = s.remaining.getD j 0 := by
  unfold rrVisit
  dsimp only
  split_ifs <;> first | rfl | exact getD_set_ne _ _ _ _ h

/-- A visit of index i leaves every other waiting entry unchanged. -/
theorem rrVisit_waiting_ne (ps : List Process) (s : RRState) (i j : ℕ)
    (h : i ≠ j) :
    (rrVisit ps s i).waiting.getD j 0 = s.waiting.getD j 0 := by
  unfold rrVisit
  dsimp only
  split_ifs <;> first | rfl | exact getD_set_ne _ _ _ _ h

/-- A visit of index i leaves every other completion entry unchanged. -/
theorem rrVisit_completion_ne (ps : List Process) (s : RRState) (i j : ℕ)
    (h : i ≠ j) :
    (rrVisit ps s i).completion.getD j 0 = s.completion.getD j 0 := by
  unfold rrVisit
  dsimp only
  split_ifs <;> first | rfl | exact getD_set_ne _ _ _ _ h

/-- Visits never shrink the clock. -/
theorem rrVisit_time_le (ps : List Process) (s : RRState) (i : ℕ) :
    s.time ≤ (rrVisit ps s i).time := by
  unfold rrVisit QUANTUM
  dsimp only
  split_ifs with h1 h2
  · show s.time ≤ s.time + 4
    linarith
  · show s.time ≤ s.time + s.remaining.getD i 0
    linarith
  · exact le_rfl

/-- Visits preserve the sizes of the three vectors. -/
theorem rrVisit_lengths (ps : List Process) (s : RRState) (i : ℕ) :
    (rrVisit ps s i).remaining.length = s.remaining.length ∧
    (rrVisit ps s i).waiting.length = s.waiting.length ∧
    (rrVisit ps s i).completion.length = s.completion.length := by
  unfold rrVisit
  dsimp only
  split_ifs <;> simp

/-- The visited remaining entry never grows (measured in ℕ). -/
theorem rrVisit_remaining_self_le (ps : List Process) (s : RRState) (i : ℕ) :
    ((rrVisit ps s i).remaining.getD i 0).toNat ≤ (s.remaining.getD i 0).toNat := by
  unfold rrVisit
  dsimp only
  split_ifs with h1 h2
  · have hi : i < s.remaining.length := lt_length_of_getD_pos _ _ h1
    simp only [getD_set_self _ _ _ hi]
    apply Int.toNat_le_toNat
    unfold QUANTUM at h2 ⊢
    linarith
  · have hi : i < s.remaining.length := lt_length_of_getD_pos _ _ h1
    simp only [getD_set_self _ _ _ hi]
    exact Nat.zero_le _
  · exact le_rfl

/-- A visit of an index with positive remaining burst strictly
shrinks that entry (measured in ℕ). -/
theorem rrVisit_remaining_self_lt (ps : List Process) (s : RRState) (i : ℕ)
    (h1 : 0 < s.remaining.getD i 0) :
    ((rrVisit ps s i).remaining.getD i 0).toNat < (s.remaining.getD i 0).toNat := by
  have hi : i < s.remaining.length := lt_length_of_getD_pos _ _ h1
  unfold rrVisit
  dsimp only
  rw [if_pos h1]
  split_ifs with h2
  · simp only [getD_set_self _ _ _ hi]
    rw [Int.toNat_lt_toNat h1]
    unfold QUANTUM at h2 ⊢
    linarith
  · simp only [getD_set_self _ _ _ hi]
    simpa using h1

/-- A visit never increases the total remaining burst. -/
theorem totalRem_visit_le (ps : List Process) (s : RRState) (i : ℕ) :
    totalRem ps (rrVisit ps s i) ≤ totalRem ps s := by
  unfold totalRem
  apply Finset.sum_le_sum
  intro j _
  by_cases hij : i = j
  · subst hij
    exact rrVisit_remaining_self_le ps s i
  · rw [rrVisit_remaining_ne ps s i j hij]

/-- A visit of an in-range index with positive remaining burst
strictly decreases the total remaining burst. -/
theorem totalRem_visit_lt (ps : List Process) (s : RRState) (i : ℕ)
    (hi : i < ps.length) (hr : 0 < s.remaining.getD i 0) :
    totalRem ps (rrVisit ps s i) < totalRem ps s := by
  unfold totalRem
  apply Finset.sum_lt_sum
  · intro j _
    by_cases hij : i = j
    · subst hij
      exact rrVisit_remaining_self_le ps s i
    · rw [rrVisit_remaining_ne ps s i j hij]
  · exact ⟨i, Finset.mem_range.mpr hi, rrVisit_remaining_self_lt ps s i hr⟩

/-- Folding visits never increases the total remaining burst. -/
theorem totalRem_foldl_le (ps : List Process) :
    ∀ (idxs : List ℕ) (s : RRState),
      totalRem ps (idxs.foldl (rrVisit ps) s) ≤ totalRem ps s := by
  intro idxs
  induction idxs with
  | nil => intro s; exact le_rfl
  | cons j rest ih =>
    intro s
    calc totalRem ps (rest.foldl (rrVisit ps) (rrVisit ps s j))
        ≤ totalRem ps (rrVisit ps s j) := ih (rrVisit ps s j)
      _ ≤ totalRem ps s := totalRem_visit_le ps s j

/-- Folding visits over a list containing an in-range index with
positive remaining burst strictly decreases the total. -/
theorem totalRem_foldl_lt (ps : List Process) :
    ∀ (idxs : List ℕ) (s : RRState) (i : ℕ),
      i ∈ idxs → i < ps.length → 0 < s.remaining.getD i 0 →
      totalRem ps (idxs.foldl (rrVisit ps) s) < totalRem ps s := by
  intro idxs
  induction idxs with
  | nil =>
    intro s i hmem
    exact absurd hmem (List.not_mem_nil i)
  | cons j rest ih =>
    intro s i hmem hi hr
    by_cases hij : i = j
    · subst hij
      calc totalRem ps (rest.foldl (rrVisit ps) (rrVisit ps s i))
          ≤ totalRem ps (rrVisit ps s i) := totalRem_foldl_le ps rest _
        _ < totalRem ps s := totalRem_visit_lt ps s i hi hr
    · have hmem2 : i ∈ rest := by
        rcases List.mem_cons.mp hmem with h | h
        · exact absurd h hij
        · exact h
      have hr2 : 0 < (rrVisit ps s j).remaining.getD i 0 := by
        rw [rrVisit_remaining_ne ps s j i (fun he => hij he.symm)]
        exact hr
      calc totalRem ps (rest.foldl (rrVisit ps) (rrVisit ps s j))
          < totalRem ps (rrVisit ps s j) := ih (rrVisit ps s j) i hmem2 hi hr2
        _ ≤ totalRem ps s := totalRem_visit_le ps s j

/-- The done flag is true exactly when no visited entry is positive. -/
theorem rrDone_iff (ps : List Process) (s : RRState) :
    rrDone ps s = true ↔ ∀ i < ps.length, s.remaining.getD i 0 ≤ 0 := by
  unfold rrDone
  exact decide_eq_true_iff

/-- The done flag is false exactly when some visited entry is
positive. -/
theorem rrDone_false_iff (ps : List Process) (s : RRState) :
    rrDone ps s = false ↔ ∃ i, i < ps.length ∧ 0 < s.remaining.getD i 0 := by
  rw [← Bool.not_eq_true, rrDone_iff]
  push_neg
  simp only [exists_prop]

/-- The total remaining burst vanishes exactly when the sweep reports
done. -/
theorem totalRem_eq_zero_iff (ps : List Process) (s : RRState) :
    totalRem ps s = 0 ↔ rrDone ps s = true := by
  unfold totalRem
  rw [rrDone_iff, Finset.sum_eq_zero_iff]
  constructor
  · intro h i hi
    have := h i (Finset.mem_range.mpr hi)
    omega
  · intro h i hi
    have := h i (Finset.mem_range.mp hi)
    omega

/-- One sweep with work left strictly decreases the total remaining
burst. -/
theorem rrSweep_decreases (ps : List Process) (s : RRState)
    (h : rrDone ps s = false) :
    totalRem ps (rrSweep ps s) < totalRem ps s := by
  obtain ⟨i, hi, hr⟩ := (rrDone_false_iff ps s).mp h
  exact totalRem_foldl_lt ps (List.range ps.length) s i
    (List.mem_range.mpr hi) hi hr

/-- Visits of non-positive entries are no-ops. -/
theorem foldl_visit_id (ps : List Process) :
    ∀ (idxs : List ℕ) (s : RRState),
      (∀ i ∈ idxs, s.remaining.getD i 0 ≤ 0) →
      idxs.foldl (rrVisit ps) s = s := by
  intro idxs
  induction idxs with
  | nil => intro s _; rfl
  | cons j rest ih =>
    intro s h
    have hj : s.remaining.getD j 0 ≤ 0 := h j (List.mem_cons_self j rest)
    have hid : rrVisit ps s j = s := by
      unfold rrVisit
      dsimp only
      rw [if_neg (not_lt.mpr hj)]
    rw [List.foldl_cons, hid]
    exact ih s (fun i hi => h i (List.mem_cons_of_mem j hi))

/-- A sweep of a done state changes nothing. -/
theorem rrSweep_id (ps : List Process) (s : RRState)
    (h : rrDone ps s = true) :
    rrSweep ps s = s := by
  unfold rrSweep
  apply foldl_visit_id
  intro i hi
  exact (rrDone_iff ps s).mp h i (List.mem_range.mp hi)

/-- Unrolling of the bounded loop: with enough fuel it runs exactly
to the first sweep whose pre-state is done, and returns that state
(the final sweep is a no-op). -/
theorem rrLoopFuel_spec (ps : List Process) :
    ∀ (fuel : ℕ) (s : RRState), totalRem ps s < fuel →
      ∃ k, rrDone ps ((rrSweep ps)^[k] s) = true ∧
        (∀ j < k, rrDone ps ((rrSweep ps)^[j] s) = false) ∧
        rrLoopFuel ps fuel s = (rrSweep ps)^[k] s := by
  intro fuel
  induction fuel with
  | zero =>
    intro s h
    exact absurd h (Nat.not_lt_zero _)
  | succ fuel ih =>
    intro s h
    by_cases hd : rrDone ps s = true
    · refine ⟨0, hd, fun j hj => absurd hj (Nat.not_lt_zero j), ?_⟩
      show (if rrDone ps s then rrSweep ps s else rrLoopFuel ps fuel (rrSweep ps s)) = s
      rw [if_pos hd, rrSweep_id ps s hd]
    · have hdf : rrDone ps s = false := Bool.not_eq_true _ |>.mp hd
      have hlt := rrSweep_decreases ps s hdf
      have h2 : totalRem ps (rrSweep ps s) < fuel := by omega
      obtain ⟨k, hk1, hk2, hk3⟩ := ih (rrSweep ps s) h2
      refine ⟨k + 1, ?_, ?_, ?_⟩
      · rw [Function.iterate_succ_apply]
        exact hk1
      · intro j hj
        cases j with
        | zero => exact hdf
        | succ j2 =>
          rw [Function.iterate_succ_apply]
          exact hk2 j2 (by omega)
      · show (if rrDone ps s then rrSweep ps s else rrLoopFuel ps fuel (rrSweep ps s)) =
          (rrSweep ps)^[k + 1] s
        rw [if_neg hd, hk3, Function.iterate_succ_apply]

/-- A property preserved by every in-range visit is preserved by
folding visits over in-range indices. -/
theorem foldl_visit_inv (ps : List Process) (Inv : RRState → Prop)
    (hstep : ∀ s i, i < ps.length → Inv s → Inv (rrVisit ps s i)) :
    ∀ (idxs : List ℕ), (∀ i ∈ idxs, i < ps.length) →
      ∀ s, Inv s → Inv (idxs.foldl (rrVisit ps) s) := by
  intro idxs
  induction idxs with
  | nil =>
    intro _ s hs
    exact hs
  | cons j rest ih =>
    intro hmem s hs
    exact ih (fun i hi => hmem i (List.mem_cons_of_mem j hi)) _
      (hstep s j (hmem j (List.mem_cons_self j rest)) hs)

/-- A property preserved by every in-range visit is preserved by every
iterated sweep. -/
theorem iterate_sweep_inv (ps : List Process) (Inv : RRState → Prop)
    (hstep : ∀ s i, i < ps.length → Inv s → Inv (rrVisit ps s i)) :
    ∀ (k : ℕ) (s : RRState), Inv s → Inv ((rrSweep ps)^[k] s) := by
  intro k
  induction k with
  | zero =>
    intro s hs
    exact hs
  | succ m ihm =>
    intro s hs
    rw [Function.iterate_succ_apply']
    exact foldl_visit_inv ps Inv hstep (List.range ps.length)
      (fun i hi => List.mem_range.mp hi) _ (ihm s hs)

/-- Summing getD over an initial range after a set. -/
theorem sum_getD_set (l : List ℤ) (i : ℕ) (x : ℤ) (n : ℕ) (hin : i < n)
    (hil : i < l.length) :
    ∑ j in Finset.range n, (l.set i x).getD j 0 =
      (∑ j in Finset.range n, l.getD j 0) - l.getD i 0 + x := by
  have hmem : i ∈ Finset.range n := Finset.mem_range.mpr hin
  have h1 : ∀ j ∈ Finset.range n, (l.set i x).getD j 0 =
      Function.update (fun j => l.getD j 0) i x j := by
    intro j _
    by_cases hij : j = i
    · subst hij
      rw [Function.update_same, getD_set_self _ _ _ hil]
    · rw [Function.update_noteq hij, getD_set_ne _ _ _ _ (fun he => hij he.symm)]
  rw [Finset.sum_congr rfl h1, Finset.sum_update_of_mem hmem,
    Finset.sum_eq_sum_diff_singleton_add hmem (fun j => l.getD j 0)]
  ring

/-- Every in-range visit preserves clock plus signed remaining burst:
time advances by exactly the burst it consumes. -/
theorem rrVisit_clock (ps : List Process) (s : RRState) (i : ℕ)
    (hi : i < ps.length) :
    (rrVisit ps s i).time + intRem ps (rrVisit ps s i) = s.time + intRem ps s := by
  unfold rrVisit intRem
  dsimp only
  split_ifs with h1 h2
  · rw [sum_getD_set _ _ _ _ hi (lt_length_of_getD_pos _ _ h1)]
    ring
  · rw [sum_getD_set _ _ _ _ hi (lt_length_of_getD_pos _ _ h1)]
    ring
  · rfl

/-- Summing getD over the whole index range gives the list sum. -/
theorem sum_getD_eq_sum (l : List ℤ) :
    ∑ j in Finset.range l.length, l.getD j 0 = l.sum := by
  induction l with
  | nil => simp
  | cons x t ih =>
    rw [List.length_cons, Finset.sum_range_succ']
    simp only [List.getD_cons_succ, List.getD_cons_zero, List.sum_cons, ih]
    ring

/-- At initialisation the signed remaining burst is the total burst. -/
theorem intRem_init (ps : List Process) : intRem ps (rrInit ps) = sumBurst ps := by
  unfold intRem rrInit sumBurst
  dsimp only
  rw [show ps.length = (ps.map Process.burst_time).length by simp]
  exact sum_getD_eq_sum (ps.map Process.burst_time)

/-- Initial remaining entries are the burst times. -/
theorem getD_map_burst (ps : List Process) :
    ∀ i, i < ps.length →
      (ps.map Process.burst_time).getD i 0 = (ps.getD i default).burst_time := by
  induction ps with
  | nil =>
    intro i hi
    simp at hi
  | cons p t ih =>
    intro i hi
    cases i with
    | zero => rfl
    | succ j =>
      simp only [List.map_cons, List.getD_cons_succ]
      exact ih j (by simpa using hi)

/-- Entries of a zero-filled vector. -/
theorem getD_replicate_zero (n i : ℕ) : (List.replicate n (0 : ℤ)).getD i 0 = 0 := by
  induction n generalizing i with
  | zero => rfl
  | succ m ih =>
    cases i with
    | zero => rfl
    | succ j =>
      rw [List.replicate, List.getD_cons_succ]
      exact ih j

/-- An in-range getD is an element of the list. -/
theorem getD_mem (ps : List Process) :
    ∀ i, i < ps.length → ps.getD i default ∈ ps := by
  induction ps with
  | nil =>
    intro i hi
    simp at hi
  | cons p t ih =>
    intro i hi
    cases i with
    | zero => exact List.mem_cons_self p t
    | succ j =>
      simp only [List.getD_cons_succ]
      exact List.mem_cons_of_mem p (ih j (by simpa using hi))

/-- The round-robin invariant holds initially for positive bursts. -/
theorem RRInv_init (ps : List Process) (hb : ∀ p ∈ ps, 1 ≤ p.burst_time) :
    RRInv ps (rrInit ps) := by
  unfold RRInv rrInit
  dsimp only
  refine ⟨List.length_map _ _, List.length_replicate _ _, List.length_replicate _ _,
    le_rfl, ?_⟩
  intro i hi
  have hbi : 1 ≤ (ps.getD i default).burst_time := hb _ (getD_mem ps i hi)
  rw [getD_map_burst ps i hi, getD_replicate_zero]
  exact ⟨by linarith, le_rfl, fun _ => ⟨rfl, rfl⟩, fun hz => by linarith⟩

/-- Every in-range visit preserves the round-robin invariant. -/
theorem rrVisit_RRInv (ps : List Process) (s : RRState) (i : ℕ)
    (_hi : i < ps.length) (hs : RRInv ps s) : RRInv ps (rrVisit ps s i) := by
  obtain ⟨hlr, hlw, hlc, ht, hP⟩ := hs
  have htime := rrVisit_time_le ps s i
  have hlen := rrVisit_lengths ps s i
  refine ⟨by rw [hlen.1, hlr], by rw [hlen.2.1, hlw], by rw [hlen.2.2, hlc],
    le_trans ht htime, ?_⟩
  intro j hj
  obtain ⟨hj1, hj2, hj3, hj4⟩ := hP j hj
  by_cases hij : i = j
  · subst hij
    by_cases h1 : 0 < s.remaining.getD i 0
    · have hil : i < s.remaining.length := lt_length_of_getD_pos _ _ h1
      have hiw : i < s.waiting.length := by rw [hlw]; exact hj
      have hic : i < s.completion.length := by rw [hlc]; exact hj
      obtain ⟨hw0, hc0⟩ := hj3 h1
      by_cases h2 : QUANTUM < s.remaining.getD i 0
      · have hv : rrVisit ps s i =
            { s with
              time := s.time + QUANTUM
              remaining := s.remaining.set i (s.remaining.getD i 0 - QUANTUM) } := by
          unfold rrVisit
          dsimp only
          rw [if_pos h1, if_pos h2]
        rw [hv]
        dsimp only
        refine ⟨?_, ?_, fun _ => ⟨hw0, hc0⟩, ?_⟩
        · rw [getD_set_self _ _ _ hil]
          unfold QUANTUM at h2 ⊢
          linarith
        · unfold QUANTUM
          linarith
        · intro hz
          rw [getD_set_self _ _ _ hil] at hz
          unfold QUANTUM at h2 hz
          linarith
      · have hv : rrVisit ps s i =
            { time := s.time + s.remaining.getD i 0
              remaining := s.remaining.set i 0
              waiting := s.waiting.set i
                (s.time + s.remaining.getD i 0 - (ps.getD i default).burst_time)
              completion := s.completion.set i (s.time + s.remaining.getD i 0) } := by
          unfold rrVisit
          dsimp only
          rw [if_pos h1, if_neg h2]
        rw [hv]
        dsimp only
        refine ⟨?_, ?_, ?_, ?_⟩
        · rw [getD_set_self _ _ _ hil]
        · rw [getD_set_self _ _ _ hic]
        · intro hpos
          rw [getD_set_self _ _ _ hil] at hpos
          exact absurd hpos (lt_irrefl 0)
        · intro _
          rw [getD_set_self _ _ _ hiw, getD_set_self _ _ _ hic]
    · have hv : rrVisit ps s i = s := by
        unfold rrVisit
        dsimp only
        rw [if_neg h1]
      rw [hv]
      exact ⟨hj1, hj2, hj3, hj4⟩
  · rw [rrVisit_remaining_ne ps s i j hij, rrVisit_waiting_ne ps s i j hij,
      rrVisit_completion_ne ps s i j hij]
    exact ⟨hj1, le_trans hj2 htime, hj3, hj4⟩

/-- The clock identity time + intRem = const propagates through
iterated sweeps. -/
theorem iterate_sweep_clock (ps : List Process) (k : ℕ) (s : RRState) :
    ((rrSweep ps)^[k] s).time + intRem ps ((rrSweep ps)^[k] s) =
      s.time + intRem ps s := by
  have h := iterate_sweep_inv ps
    (fun s2 => s2.time + intRem ps s2 = s.time + intRem ps s)
    (fun s2 i hi hs2 => by
      show (rrVisit ps s2 i).time + intRem ps (rrVisit ps s2 i) =
        s.time + intRem ps s
      rw [rrVisit_clock ps s2 i hi]
      exact hs2) k s rfl
  exact h

/-- If the fold finishes all work that was pending, some process
records its completion at the final clock value. -/
theorem foldl_visit_completion_ex (ps : List Process) :
    ∀ (idxs : List ℕ) (s : RRState),
      (∀ i ∈ idxs, i < ps.length) →
      s.completion.length = ps.length →
      totalRem ps (idxs.foldl (rrVisit ps) s) = 0 →
      0 < totalRem ps s →
      ∃ i, i < ps.length ∧
        (idxs.foldl (rrVisit ps) s).completion.getD i 0 =
          (idxs.foldl (rrVisit ps) s).time := by
  intro idxs
  induction idxs with
  | nil =>
    intro s _ _ hz hp
    rw [List.foldl_nil] at hz
    omega
  | cons j rest ih =>
    intro s hmem hcl hz hp
    rw [List.foldl_cons] at hz ⊢
    have hmem2 : ∀ i ∈ rest, i < ps.length :=
      fun i hi => hmem i (List.mem_cons_of_mem j hi)
    have hcl2 : (rrVisit ps s j).completion.length = ps.length := by
      rw [(rrVisit_lengths ps s j).2.2, hcl]
    by_cases h1 : 0 < s.remaining.getD j 0
    · have hjN := hmem j (List.mem_cons_self j rest)
      have hil : j < s.remaining.length := lt_length_of_getD_pos _ _ h1
      by_cases h2 : QUANTUM < s.remaining.getD j 0
      · have hentry : (rrVisit ps s j).remaining.getD j 0 =
            s.remaining.getD j 0 - QUANTUM := by
          unfold rrVisit
          dsimp only
          rw [if_pos h1, if_pos h2]
          dsimp only
          exact getD_set_self _ _ _ hil
        have hepos : 0 < (rrVisit ps s j).remaining.getD j 0 := by
          rw [hentry]
          unfold QUANTUM at h2 ⊢
          linarith
        have hpos : 0 < totalRem ps (rrVisit ps s j) := by
          rcases Nat.eq_zero_or_pos (totalRem ps (rrVisit ps s j)) with h0 | h0
          · exfalso
            have hdone := (totalRem_eq_zero_iff ps _).mp h0
            have hle := (rrDone_iff ps _).mp hdone j hjN
            omega
          · exact h0
        exact ih (rrVisit ps s j) hmem2 hcl2 hz hpos
      · by_cases h3 : totalRem ps (rrVisit ps s j) = 0
        · have hdone := (totalRem_eq_zero_iff ps _).mp h3
          have hid : rest.foldl (rrVisit ps) (rrVisit ps s j) = rrVisit ps s j := by
            apply foldl_visit_id
            intro i hi
            exact (rrDone_iff ps _).mp hdone i (hmem2 i hi)
          rw [hid]
          refine ⟨j, hjN, ?_⟩
          have hjc : j < s.completion.length := by rw [hcl]; exact hjN
          have hv : (rrVisit ps s j).completion.getD j 0 =
              s.time + s.remaining.getD j 0 := by
            unfold rrVisit
            dsimp only
            rw [if_pos h1, if_neg h2]
            dsimp only
            exact getD_set_self _ _ _ hjc
          have hvt : (rrVisit ps s j).time = s.time + s.remaining.getD j 0 := by
            unfold rrVisit
            dsimp only
            rw [if_pos h1, if_neg h2]
          rw [hv, hvt]
        · exact ih (rrVisit ps s j) hmem2 hcl2 hz (Nat.pos_of_ne_zero h3)
    · have hid : rrVisit ps s j = s := by
        unfold rrVisit
        dsimp only
        rw [if_neg h1]
      rw [hid] at hz ⊢
      exact ih s hmem2 hcl hz hp

/-- C3: for every non-empty batch of processes with positive bursts,
Round-Robin records waiting_time[i] = completion_time[i] -
burst_time[i] for every process, leaves every remaining burst at 0
(each process runs for exactly its burst across its quanta), ends the
clock at the sum of all bursts, the last process to finish completes
at that sum (some completion equals it and none exceeds it), and
Scenario D holds: the single process (id0, burst5) under quantum 4
gets waiting 0, completion 5 and average waiting 0. -/
theorem C3_round_robin_metrics (ps : List Process)
    (hb : ∀ p ∈ ps, 1 ≤ p.burst_time) (hne : ps ≠ []) :
    (∀ i < ps.length,
      (round_robin ps).waiting_time.getD i 0 =
        (round_robin ps).completion_time.getD i 0 - (ps.getD i default).burst_time) ∧
    (∀ i < ps.length, (round_robin ps).final.remaining.getD i 0 = 0) ∧
    (round_robin ps).final.time = sumBurst ps ∧
    (∃ i, i < ps.length ∧
      (round_robin ps).completion_time.getD i 0 = sumBurst ps) ∧
    (∀ i < ps.length, (round_robin ps).completion_time.getD i 0 ≤ sumBurst ps) ∧
    (round_robin [⟨0, 5, 1⟩]).waiting_time = [0] ∧
    (round_robin [⟨0, 5, 1⟩]).completion_time = [5] ∧
    (round_robin [⟨0, 5, 1⟩]).avg_waiting_time = 0 := by
  obtain ⟨k, hk1, hk2, hk3⟩ :=
    rrLoopFuel_spec ps (totalRem ps (rrInit ps) + 1) (rrInit ps) (Nat.lt_succ_self _)
  have hfin : (round_robin ps).final = (rrSweep ps)^[k] (rrInit ps) := hk3
  have hinv : RRInv ps ((rrSweep ps)^[k] (rrInit ps)) :=
    iterate_sweep_inv ps (RRInv ps) (fun s i hi hs => rrVisit_RRInv ps s i hi hs)
      k (rrInit ps) (RRInv_init ps hb)
  obtain ⟨hlr, hlw, hlc, ht, hP⟩ := hinv
  have hdone : ∀ i < ps.length,
      ((rrSweep ps)^[k] (rrInit ps)).remaining.getD i 0 ≤ 0 :=
    (rrDone_iff ps _).mp hk1
  have hzero : ∀ i < ps.length,
      ((rrSweep ps)^[k] (rrInit ps)).remaining.getD i 0 = 0 := by
    intro i hi
    have h1 := hdone i hi
    have h2 := (hP i hi).1
    omega
  have hclock := iterate_sweep_clock ps k (rrInit ps)
  have hrem0 : intRem ps ((rrSweep ps)^[k] (rrInit ps)) = 0 := by
    unfold intRem
    apply Finset.sum_eq_zero
    intro i hi
    exact hzero i (Finset.mem_range.mp hi)
  have htime : ((rrSweep ps)^[k] (rrInit ps)).time = sumBurst ps := by
    have h2 := hclock
    rw [hrem0, intRem_init, add_zero] at h2
    rw [h2]
    show (0 : ℤ) + sumBurst ps = sumBurst ps
    ring
  have hpos0 : 0 < totalRem ps (rrInit ps) := by
    rcases Nat.eq_zero_or_pos (totalRem ps (rrInit ps)) with h0 | h0
    · exfalso
      have hdone0 := (totalRem_eq_zero_iff ps _).mp h0
      have hlen0 : 0 < ps.length := List.length_pos.mpr hne
      have hle := (rrDone_iff ps _).mp hdone0 0 hlen0
      have hb0 : 1 ≤ (ps.getD 0 default).burst_time :=
        hb _ (getD_mem ps 0 hlen0)
      have hrm : (rrInit ps).remaining.getD 0 0 =
          (ps.getD 0 default).burst_time := by
        unfold rrInit
        exact getD_map_burst ps 0 hlen0
      rw [hrm] at hle
      omega
    · exact h0
  have hk0 : k ≠ 0 := by
    intro hk
    subst hk
    have := (totalRem_eq_zero_iff ps (rrInit ps)).mpr hk1
    omega
  obtain ⟨k2, rfl⟩ : ∃ k2, k = k2 + 1 := ⟨k - 1, by omega⟩
  have hstar : ¬ rrDone ps ((rrSweep ps)^[k2] (rrInit ps)) = true := by
    rw [hk2 k2 (Nat.lt_succ_self _)]
    exact Bool.false_ne_true
  have hstar_pos : 0 < totalRem ps ((rrSweep ps)^[k2] (rrInit ps)) := by
    rcases Nat.eq_zero_or_pos (totalRem ps ((rrSweep ps)^[k2] (rrInit ps))) with h0 | h0
    · exact absurd ((totalRem_eq_zero_iff ps _).mp h0) hstar
    · exact h0
  have hstar_inv : RRInv ps ((rrSweep ps)^[k2] (rrInit ps)) :=
    iterate_sweep_inv ps (RRInv ps) (fun s i hi hs => rrVisit_RRInv ps s i hi hs)
      k2 (rrInit ps) (RRInv_init ps hb)
  have hstep : (rrSweep ps)^[k2 + 1] (rrInit ps) =
      (List.range ps.length).foldl (rrVisit ps) ((rrSweep ps)^[k2] (rrInit ps)) := by
    rw [Function.iterate_succ_apply']
    rfl
  have hex : ∃ i, i < ps.length ∧
      ((rrSweep ps)^[k2 + 1] (rrInit ps)).completion.getD i 0 =
        ((rrSweep ps)^[k2 + 1] (rrInit ps)).time := by
    rw [hstep]
    apply foldl_visit_completion_ex ps (List.range ps.length) _
      (fun i hi => List.mem_range.mp hi) hstar_inv.2.2.1
    · rw [← hstep]
      exact (totalRem_eq_zero_iff ps _).mpr hk1
    · exact hstar_pos
  have hW : (round_robin ps).waiting_time =
      ((rrSweep ps)^[k2 + 1] (rrInit ps)).waiting := by
    show (round_robin ps).final.waiting = _
    rw [hfin]
  have hC : (round_robin ps).completion_time =
      ((rrSweep ps)^[k2 + 1] (rrInit ps)).completion := by
    show (round_robin ps).final.completion = _
    rw [hfin]
  refine ⟨?_, ?_, ?_, ?_, ?_, ?_, ?_, ?_⟩
  · intro i hi
    rw [hW, hC]
    exact (hP i hi).2.2.2 (hzero i hi)
  · intro i hi
    rw [hfin]
    exact hzero i hi
  · rw [hfin]
    exact htime
  · obtain ⟨i, hi, hci⟩ := hex
    refine ⟨i, hi, ?_⟩
    rw [hC, hci]
    exact htime
  · intro i hi
    rw [hC, ← htime]
    exact (hP i hi).2.1
  · decide
  · decide
  · show averageOf [0] = 0
    norm_num [averageOf]

/-- Witness for C3 at the scenario-D batch. -/
theorem C3_witness :
    (∀ p ∈ [(⟨0, 5, 1⟩ : Process)], 1 ≤ p.burst_time) ∧
    (round_robin [(⟨0, 5, 1⟩ : Process)]).final.time =
      sumBurst [(⟨0, 5, 1⟩ : Process)] :=
  ⟨by decide,
   (C3_round_robin_metrics [⟨0, 5, 1⟩] (by decide) (by decide)).2.2.1⟩

/-- C7: the Round-Robin sweep loop terminates for every batch with
positive bursts: any sweep whose pre-state still has remaining work
strictly decreases the total remaining burst, a sweep of a finished
pre-state changes nothing, and there is a sweep count k such that the
first k sweeps each find work, the state after k sweeps is finished,
and the loop result is exactly that state (the loop runs one final
no-op sweep over it and stops). -/
theorem C7_round_robin_terminates (ps : List Process)
    (_hb : ∀ p ∈ ps, 1 ≤ p.burst_time) :
    (∀ s, rrDone ps s = false → totalRem ps (rrSweep ps s) < totalRem ps s) ∧
    (∀ s, rrDone ps s = true → rrSweep ps s = s) ∧
    ∃ k, rrDone ps ((rrSweep ps)^[k] (rrInit ps)) = true ∧
      (∀ j < k, rrDone ps ((rrSweep ps)^[j] (rrInit ps)) = false) ∧
      (round_robin ps).final = (rrSweep ps)^[k] (rrInit ps) := by
  refine ⟨fun s => rrSweep_decreases ps s, fun s => rrSweep_id ps s, ?_⟩
  obtain ⟨k, hk1, hk2, hk3⟩ :=
    rrLoopFuel_spec ps (totalRem ps (rrInit ps) + 1) (rrInit ps) (Nat.lt_succ_self _)
  exact ⟨k, hk1, hk2, hk3⟩

/-- Witness for C7 at the scenario-D batch. -/
theorem C7_witness :
    (∀ p ∈ [(⟨0, 5, 1⟩ : Process)], 1 ≤ p.burst_time) ∧
    ∃ k, rrDone [(⟨0, 5, 1⟩ : Process)]
        ((rrSweep [(⟨0, 5, 1⟩ : Process)])^[k] (rrInit [(⟨0, 5, 1⟩ : Process)])) = true ∧
      (∀ j < k, rrDone [(⟨0, 5, 1⟩ : Process)]
        ((rrSweep [(⟨0, 5, 1⟩ : Process)])^[j] (rrInit [(⟨0, 5, 1⟩ : Process)])) = false) ∧
      (round_robin [(⟨0, 5, 1⟩ : Process)]).final =
        (rrSweep [(⟨0, 5, 1⟩ : Process)])^[k] (rrInit [(⟨0, 5, 1⟩ : Process)]) :=
  ⟨by decide, (C7_round_robin_terminates [⟨0, 5, 1⟩] (by decide)).2.2⟩

/-- Witness for C9: quantum 0 is rejected. -/
theorem C9_witness :
    ∃ e : ConfigError,
      validate_configuration ⟨0, 3, 1, 20, 1, 3⟩ = Except.error e ∧
      configErrorHolds ⟨0, 3, 1, 20, 1, 3⟩ e ∧
      run_validated first_come_first_served ⟨0, 3, 1, 20, 1, 3⟩ [] =
        Except.error e :=
  C9_invalid_config_rejected first_come_first_served ⟨0, 3, 1, 20, 1, 3⟩ []
    (Or.inl (by decide))

end CPUSched
